import Mathlib

/-!
Verification of the `mdbook-note` preprocessor (`src/note.rs`).

The development shallowly embeds the two-stage algorithm of the crate:

* the extractor (`Note::parse_chapter` / `Note::clean_chapter`), driven by the
  fixed regular expression
  `\{\{#note ?(?P<key>[^}]*)}}(?P<val>[^\{]*)\{\{#note end}}`
  compiled with `multi_line` and `dot_matches_new_line`;
* the tree builder (`generate_chapter`), which recursively groups the
  collected `Extract` records into a chapter tree;
* the preprocessor entry point (`Note::run`), including the handling of the
  `name` configuration option and the empty-accumulator short-circuit.

Documents are modelled as Lean `String`s (lists of unicode scalar values,
matching Rust's `str` whose byte order coincides with scalar-value order).
Rust's `char::is_whitespace` is modelled by `Char.isWhitespace`, which agrees
with it on the ASCII whitespace relevant here.  The fixed regular expression
above is deterministic (each quantified class excludes the character that has
to follow it), so it is embedded as the total scanning function `matchNote`
below; the only choice point, the optional space `" ?"`, is resolved greedily
exactly as the leftmost-first engine of the `regex` crate does, and a
non-greedy resolution is observationally identical because the captured key
is trimmed before use.
-/

/-! ### Character and string utilities (models of the `str` methods used) -/

/-- Model of Rust `str::trim` on the character list of a string. -/
def trimChars (l : List Char) : List Char :=
  ((l.dropWhile Char.isWhitespace).reverse.dropWhile Char.isWhitespace).reverse

/-- Model of Rust `str::trim` (`capture(...).trim()` in the source). -/
def trimStr (s : String) : String :=
  String.mk (trimChars s.data)

/-- Model of Rust `str::split(sep)` for a one-character separator: splitting
`""` yields `[""]`, and every separator occurrence starts a new piece. -/
def splitChars (sep : Char) : List Char → List (List Char)
  | [] => [[]]
  | c :: cs =>
    if c = sep then [] :: splitChars sep cs
    else
      match splitChars sep cs with
      | [] => [[c]]
      | g :: gs => (c :: g) :: gs

/-- Model of `Vec::join(sep)` as used by `current_name.join(" / ")`. -/
def joinSep (sep : String) : List String → String
  | [] => ""
  | [x] => x
  | x :: y :: xs => x ++ sep ++ joinSep sep (y :: xs)

/-- Lexicographic comparison of character lists by unicode scalar value;
model of Rust `str::cmp` (byte-wise UTF-8 order equals scalar-value order). -/
def charListLe : List Char → List Char → Bool
  | [], _ => true
  | _ :: _, [] => false
  | a :: as, b :: bs => if a = b then charListLe as bs else decide (a.toNat < b.toNat)

/-- `a ≤ b` in the string order used by `sort_by(|a, b| a.name.cmp(&b.name))`. -/
def strLe (a b : String) : Bool :=
  charListLe a.data b.data

/-! ### The fixed regular expression, as a deterministic matcher -/

/-- The literal `\{\{#note` opening the start marker. -/
def startLit : List Char := "\x7b\x7b#note".data

/-- The literal end marker `\{\{#note end}}`. -/
def endLit : List Char := "\x7b\x7b#note end\x7d\x7d".data

/-- Consume an expected literal; `none` when the input does not begin with
it. -/
def dropLit : List Char → List Char → Option (List Char)
  | [], l => some l
  | _ :: _, [] => none
  | c :: cs, x :: xs => if x = c then dropLit cs xs else none

/-- Split a list at the first occurrence of `stop`: the first component is the
maximal stop-free front segment (the greedy match of `[^stop]*`), the second
the remainder beginning with `stop` (or `[]` when `stop` never occurs). -/
def splitAtChar (stop : Char) : List Char → List Char × List Char
  | [] => ([], [])
  | c :: cs =>
    if c = stop then ([], c :: cs)
    else
      let p := splitAtChar stop cs
      (c :: p.1, p.2)

/-- The part of the pattern after `\{\{#note ?`:
`(?P<key>[^}]*)}}(?P<val>[^\{]*)\{\{#note end}}`. -/
def matchBody (r2 : List Char) : Option (List Char × List Char × List Char) :=
  -- `(?P<key>[^}]*)` followed by the mandatory `}}`
  let pk := splitAtChar '\x7d' r2
  match pk.2 with
  | '\x7d' :: '\x7d' :: r4 =>
    -- `(?P<val>[^\{]*)` followed by the literal end marker
    let pv := splitAtChar '\x7b' r4
    match dropLit endLit pv.2 with
    | none => none
    | some r6 => some (pk.1, pv.1, r6)
  | _ => none

/-- Attempt to match
`\{\{#note ?(?P<key>[^}]*)}}(?P<val>[^\{]*)\{\{#note end}}` anchored at the
head of `l`.  On success returns the raw `key` capture, the raw `val`
capture, and the input remaining after the whole match. -/
def matchNote (l : List Char) : Option (List Char × List Char × List Char) :=
  match dropLit startLit l with
  | none => none
  | some r1 =>
    -- the optional space `" ?"`, resolved greedily
    match r1 with
    | ' ' :: t => matchBody t
    | _ => matchBody r1

/-- A marker-delimited region exactly as the pattern accepts it: start
marker, payload, end marker. -/
def regionOf (key val : List Char) : List Char :=
  startLit ++ ' ' :: key ++ '\x7d' :: '\x7d' :: val ++ endLit

/-! ### Scanning a document: `captures_iter` and `replace_all` -/

/-- Fueled worker for the left-to-right non-overlapping scan performed by
`captures_iter`: at each position try the anchored match; on success record
the captures and resume after the match, otherwise advance one character.
The fuel dominates the number of scan steps (each step consumes at least one
character), so `scanAux l.length l` is the total scan. -/
def scanAux : Nat → List Char → List (List Char × List Char)
  | 0, _ => []
  | _ + 1, [] => []
  | fuel + 1, c :: rest =>
    match matchNote (c :: rest) with
    | some (k, v, r) => (k, v) :: scanAux fuel r
    | none => scanAux fuel rest

/-- All (raw key, raw val) capture pairs of `self.regex.captures_iter(text)`,
in scan order. -/
def scanCaps (l : List Char) : List (List Char × List Char) :=
  scanAux l.length l

/-- Fueled worker for `self.regex.replace_all(content, "$val")`: every match
is replaced by its raw `val` capture, all other characters are kept. -/
def cleanAux : Nat → List Char → List Char
  | 0, _ => []
  | _ + 1, [] => []
  | fuel + 1, c :: rest =>
    match matchNote (c :: rest) with
    | some (_, v, r) => v ++ cleanAux fuel r
    | none => c :: cleanAux fuel rest

/-- The cleaned character stream: `replace_all(content, "$val")`. -/
def cleanList (l : List Char) : List Char :=
  cleanAux l.length l

/-- Cleaned text of a document (`Note::clean_chapter` on its content). -/
def cleanText (content : String) : String :=
  String.mk (cleanList content.data)

/-- Modelled from the spec: the spec's words for `cleanedText` say every
matched region is replaced by the *trimmed* payload text.  This variant of
`cleanAux` substitutes `trimChars v` instead of the raw capture `v`; it is
compared against `cleanAux`, which models the source's `replace_all` with
`"$val"`. -/
def specCleanAux : Nat → List Char → List Char
  | 0, _ => []
  | _ + 1, [] => []
  | fuel + 1, c :: rest =>
    match matchNote (c :: rest) with
    | some (_, v, r) => trimChars v ++ specCleanAux fuel r
    | none => c :: specCleanAux fuel rest

/-- Modelled from the spec: cleaned text with regions replaced by the trimmed
payload (the behaviour claimed by the spec for `cleanedText`). -/
def specCleanText (content : String) : String :=
  String.mk (specCleanAux content.data.length content.data)

/-! ### Extraction (`Note::parse_chapter`) -/

/-- One extracted record: a reversed key path and a payload (or heading)
value; mirrors `struct Extract { key: Vec<String>, val: String }`. -/
structure Extract where
  key : List String
  val : String
deriving DecidableEq

/-- Key-expression parsing in `parse_chapter`: split the (already trimmed)
captured key on `'|'`, trim each piece, drop empty pieces, reverse. -/
def parseKeys (key : String) : List String :=
  ((((splitChars '|' key.data).map (fun l => String.mk (trimChars l))).filter
      (fun s => s != "")).reverse)

/-- The extraction loop of `parse_chapter`: for each capture pair emit a
heading extract `"### " ++ name` the first time the trimmed raw key string is
seen (the `find_key` hash map), then always emit the payload extract. -/
def parseLoop (name : String) : List (List Char × List Char) → List String → List Extract
  | [], _ => []
  | (k, v) :: rest, seen =>
    let key := trimStr (String.mk k)
    let keys := parseKeys key
    if key ∈ seen then
      ⟨keys, trimStr (String.mk v)⟩ :: parseLoop name rest seen
    else
      ⟨keys, "### " ++ name⟩ :: ⟨keys, trimStr (String.mk v)⟩ ::
        parseLoop name rest (key :: seen)

/-- `Note::parse_chapter` on a document's display name and raw text. -/
def parseExtracts (name content : String) : List Extract :=
  parseLoop name (scanCaps content.data) []


/-! ### The book model (`mdbook::book`) -/

mutual
/-- `mdbook::book::Chapter`: name, raw content, optional section number,
nested items, optional path / source path, and the ancestor-name list. -/
inductive Chapter where
  | mk (name : String) (content : String) (number : Option (List Nat))
      (subItems : List BookItem) (path : Option String)
      (sourcePath : Option String) (parentNames : List String)

/-- `mdbook::BookItem`. -/
inductive BookItem where
  | chapter (c : Chapter)
  | separator
  | partTitle (title : String)
end

/-- A book is its ordered top-level item sequence (`Book::sections`). -/
def Book := List BookItem

def Chapter.name : Chapter → String
  | .mk n _ _ _ _ _ _ => n

def Chapter.content : Chapter → String
  | .mk _ c _ _ _ _ _ => c

def Chapter.number : Chapter → Option (List Nat)
  | .mk _ _ n _ _ _ _ => n

def Chapter.subItems : Chapter → List BookItem
  | .mk _ _ _ s _ _ _ => s

def Chapter.parentNames : Chapter → List String
  | .mk _ _ _ _ _ _ p => p

/-- The chapters stored in a chapter's `sub_items`. -/
def childChapters (c : Chapter) : List Chapter :=
  c.subItems.filterMap fun
    | .chapter c' => some c'
    | _ => none

mutual
/-- `Book::iter` (`BookItems`): depth-first pre-order traversal yielding an
item before the items nested below it. -/
def iterItem : BookItem → List BookItem
  | .chapter c => .chapter c :: iterChapter c
  | .separator => [.separator]
  | .partTitle t => [.partTitle t]

def iterChapter : Chapter → List BookItem
  | .mk _ _ _ subs _ _ _ => iterItems subs

def iterItems : List BookItem → List BookItem
  | [] => []
  | i :: rest => iterItem i ++ iterItems rest
end

/-- `Note::parse_chapter`: scans the chapter's content, tagging headings with
the chapter's display name. -/
def parse_chapter (c : Chapter) : List Extract :=
  parseExtracts c.name c.content

/-- `Note::clean_chapter`: the chapter with its content passed through
`replace_all(content, "$val")`; every other field is kept. -/
def clean_chapter : Chapter → Chapter
  | .mk n content num subs p sp pn => .mk n (cleanText content) num subs p sp pn

/-! ### The tree builder (`generate_chapter`) -/

/-- `local.key.pop()` on an extract: `none` when the key path is exhausted,
otherwise the last segment together with the extract with that segment
removed. -/
def popKey (e : Extract) : Option (String × Extract) :=
  match e.key.getLast? with
  | none => none
  | some k => some (k, ⟨e.key.dropLast, e.val⟩)

/-- `extract_by_key.entry(k).or_insert_with(Vec::new).push(local)`: append the
popped extract to the group of its segment, creating the group on first use.
The association list plays the role of the hash map; since the groups are
sorted by key before use, only the per-group insertion order matters. -/
def addToGroups (groups : List (String × List Extract)) (k : String) (e : Extract) :
    List (String × List Extract) :=
  match groups with
  | [] => [(k, [e])]
  | (k', l) :: rest =>
    if k' = k then (k', l ++ [e]) :: rest
    else (k', l) :: addToGroups rest k e

/-- `format!("{}\n\n{}", content, val)` guarded by `content.is_empty()`. -/
def appendBody (content val : String) : String :=
  if content = "" then val else content ++ "\n\n" ++ val

/-- The `for extract in extracts` loop of `generate_chapter`: thread the
chapter body and the grouping map through the extract list. -/
def distribute (st : String × List (String × List Extract)) :
    List Extract → String × List (String × List Extract)
  | [] => st
  | e :: rest =>
    match popKey e with
    | none => distribute (appendBody st.1 e.val, st.2) rest
    | some (k, e') => distribute (st.1, addToGroups st.2 k e') rest

/-- `extract_to_sort.sort_by(|a, b| a.name.cmp(&b.name))`. -/
def sortGroups (groups : List (String × List Extract)) :
    List (String × List Extract) :=
  List.insertionSort (fun a b => strLe a.1 b.1 = true) groups

/-- The `let mut i = 1; for extract in extract_to_sort` counter: pair each
group with its 1-based position index. -/
def withIdx (i : Nat) : List (String × List Extract) →
    List (Nat × String × List Extract)
  | [] => []
  | g :: gs => (i, g.1, g.2) :: withIdx (i + 1) gs

/-- Sum of `key.length + 1` over a record list: the termination measure of the
recursive tree build (each grouped record loses one key segment). -/
def weightList (extracts : List Extract) : Nat :=
  (extracts.map (fun e => e.key.length + 1)).sum

/-- Fueled body of `generate_chapter`; `fuel` strictly dominates
`weightList extracts` at every (reachable) call, which makes the zero-fuel
case unreachable (`generateAux_zero_unreachable` below states the bound that
guarantees this).  Written with `Nat.rec` so that the definition reduces
definitionally on closed inputs. -/
def generateAux : Nat → List Extract → String → List String → List Nat → Chapter :=
  Nat.rec (motive := fun _ => List Extract → String → List String → List Nat → Chapter)
    (fun _ name parent sec =>
      .mk name ("## " ++ joinSep " / " (parent ++ [name])) (some sec) []
        (some name) none parent)
    (fun _ ih extracts name parent sec =>
      let st := distribute ("## " ++ joinSep " / " (parent ++ [name]), []) extracts
      let parent2 := parent ++ [name]
      let sorted := sortGroups st.2
      .mk name st.1 (some sec)
        ((withIdx 1 sorted).map fun g =>
          .chapter (ih g.2.2 g.2.1 parent2 (sec ++ [g.1])))
        (some name) none parent)

/-- `generate_chapter(extracts, name, parent, section)`. -/
def generate_chapter (extracts : List Extract) (name : String)
    (parent : List String) (sec : List Nat) : Chapter :=
  generateAux (weightList extracts + 1) extracts name parent sec

/-! ### The preprocessor entry point (`Note::run`) -/

/-- A TOML configuration value, as far as `value.as_str()` observes it. -/
inductive TomlValue where
  | str (s : String)
  | boolean (b : Bool)
  | integer (n : Int)
  | other
deriving DecidableEq

/-- `toml::Value::as_str`. -/
def TomlValue.as_str : TomlValue → Option String
  | .str s => some s
  | _ => none

/-- The part of `PreprocessorContext` read by `Note::run`: the
`[preprocessor.note]` table (`ctx.config.get_preprocessor("note")`), if
present, as an association list. -/
structure PreprocessorContext where
  config : Option (List (String × TomlValue))

/-- The `name` resolution at the top of `Note::run`: default `"note"` when
the table or the option is absent; `value.as_str().unwrap()` otherwise, whose
panic on a non-string value is modelled by `none`. -/
def nameFromConfig (ctx : PreprocessorContext) : Option String :=
  match ctx.config with
  | none => some "note"
  | some cfg =>
    match cfg.lookup "name" with
    | none => some "note"
    | some value => value.as_str

/-- The per-item work of the `for item in book.iter()` loop: chapters are
replaced by their cleaned version, other items are kept. -/
def processItem : BookItem → BookItem
  | .chapter c => .chapter (clean_chapter c)
  | .separator => .separator
  | .partTitle t => .partTitle t

/-- The extract accumulator after the loop: the concatenation, in iteration
order, of `parse_chapter` over every iterated chapter. -/
def collectExtracts (book : Book) : List Extract :=
  (iterItems book).flatMap fun
    | .chapter c => parse_chapter c
    | _ => []

/-- `Note::run` after the configuration has been resolved to `name`: build
`new_book` and the accumulator; return the *original* book when the
accumulator is empty, otherwise append the generated note chapter. -/
def runWithName (name : String) (book : Book) : Book :=
  let extracts := collectExtracts book
  if extracts.isEmpty then book
  else
    (iterItems book).map processItem ++
      [.chapter (generate_chapter extracts name [] [99])]

/-- `Note::run`.  The result is `none` exactly when the `unwrap` on
`value.as_str()` panics, which aborts the preprocessor before any document is
processed. -/
def run (ctx : PreprocessorContext) (book : Book) : Option Book :=
  match nameFromConfig ctx with
  | none => none
  | some name => some (runWithName name book)

/-! ### Derived notions used by the stated properties -/

/-- The values of the extracts whose key path is empty, in arrival order:
these become body paragraphs of the current node. -/
def unkeyedVals (extracts : List Extract) : List String :=
  (extracts.filter (fun e => e.key.isEmpty)).map Extract.val

/-- Total weight of a grouping map (sum of the member weights). -/
def groupsWeight (groups : List (String × List Extract)) : Nat :=
  (groups.map (fun g => weightList g.2)).sum

/-- Sum of `key.length` over the keyed extracts: the exact weight added to
the grouping map by `distribute` (each grouped record drops one segment). -/
def keyedWeight (extracts : List Extract) : Nat :=
  ((extracts.filter (fun e => !e.key.isEmpty)).map (fun e => e.key.length)).sum

/-- Number of keyed extracts in a list. -/
def keyedCount (extracts : List Extract) : Nat :=
  (extracts.filter (fun e => !e.key.isEmpty)).length

/-- The structural invariant of every chapter produced by the tree builder:
at every node the children are strictly ascending by name (ascending in the
string order with no duplicates), the `i`-th child's section number is the
node's section number with `i + 1` appended, and the invariant holds
recursively below. -/
inductive TreeInv : Chapter → Prop where
  | node : ∀ c : Chapter,
      List.Pairwise
        (fun a b : Chapter => strLe a.name b.name = true ∧ a.name ≠ b.name)
        (childChapters c) →
      (∀ i (h : i < (childChapters c).length),
        ((childChapters c).get ⟨i, h⟩).number =
          c.number.map (fun pos => pos ++ [i + 1])) →
      (∀ c' ∈ childChapters c, TreeInv c') →
      TreeInv c

/-! Sanity checks mirroring the crate's own unit tests. -/

/-- The repository test `test_extract_inline`. -/
theorem sanity_extract_inline :
    parseExtracts "some name"
      "some outer content \x7b\x7b#note my_key\x7d\x7dinside contente\x7b\x7b#note end\x7d\x7d other outer content" =
      [⟨["my_key"], "### some name"⟩, ⟨["my_key"], "inside contente"⟩] := by
  decide

/-- The repository test `test_extract_multiline` (payload trimmed across
lines). -/
theorem sanity_extract_multiline :
    parseExtracts "some name"
      "some outer content\n\x7b\x7b#note my_key\x7d\x7d\ninside contente\n\x7b\x7b#note end\x7d\x7d\nother outer content" =
      [⟨["my_key"], "### some name"⟩, ⟨["my_key"], "inside contente"⟩] := by
  decide

/-- Key reversal as exercised by `test_extract_multiline_multicapture`:
`"my_key| my sub key"` stores the path reversed. -/
theorem sanity_key_reversal :
    parseKeys "my_key| my sub key" = ["my sub key", "my_key"] := by
  decide

/-! ### Lemmas about the matcher -/

theorem dropLit_append (p l : List Char) : dropLit p (p ++ l) = some l := by
  induction p with
  | nil => rfl
  | cons c cs ih => simp [dropLit, ih]

theorem dropLit_length {p l r : List Char} (h : dropLit p l = some r) :
    r.length + p.length = l.length := by
  induction p generalizing l with
  | nil =>
    simp only [dropLit, Option.some.injEq] at h
    simp [h]
  | cons c cs ih =>
    cases l with
    | nil => simp [dropLit] at h
    | cons x xs =>
      by_cases hx : x = c
      · simp only [dropLit, hx, if_pos rfl] at h
        have := ih h
        simp only [List.length_cons]
        omega
      · simp [dropLit, hx] at h

theorem splitAtChar_append {stop : Char} {a : List Char} (b : List Char)
    (h : ∀ c ∈ a, c ≠ stop) :
    splitAtChar stop (a ++ stop :: b) = (a, stop :: b) := by
  induction a with
  | nil => simp [splitAtChar]
  | cons c cs ih =>
    have hc : c ≠ stop := h c (by simp)
    simp [splitAtChar, hc, ih (fun x hx => h x (by simp [hx]))]

theorem splitAtChar_eq (stop : Char) (l : List Char) :
    (splitAtChar stop l).1 ++ (splitAtChar stop l).2 = l := by
  induction l with
  | nil => rfl
  | cons c cs ih =>
    by_cases hc : c = stop <;> simp [splitAtChar, hc, ih]

theorem matchBody_length {r2 k v r : List Char} (h : matchBody r2 = some (k, v, r)) :
    r.length < r2.length := by
  have hpk := congrArg List.length (splitAtChar_eq '\x7d' r2)
  simp only [List.length_append] at hpk
  simp only [matchBody] at h
  split at h
  case _ r4 heq =>
    have hpv := congrArg List.length (splitAtChar_eq '\x7b' r4)
    simp only [List.length_append] at hpv
    split at h
    · cases h
    case _ r6 heq6 =>
      have he := dropLit_length heq6
      simp only [Option.some.injEq, Prod.mk.injEq] at h
      obtain ⟨-, -, hr⟩ := h
      subst hr
      rw [heq] at hpk
      simp only [List.length_cons] at hpk
      have h13 : endLit.length = 13 := rfl
      omega
  · cases h

theorem matchNote_length {l k v r : List Char} (h : matchNote l = some (k, v, r)) :
    r.length < l.length := by
  simp only [matchNote] at h
  split at h
  · cases h
  case _ r1 heq1 =>
    have e1 := dropLit_length heq1
    have h7 : startLit.length = 7 := rfl
    split at h
    case _ t heq2 =>
      have hb := matchBody_length h
      simp only [List.length_cons] at e1
      omega
    case _ =>
      have hb := matchBody_length h
      omega

theorem matchNote_nil : matchNote [] = none := rfl

theorem matchNote_cons_ne {c : Char} (hc : c ≠ '\x7b') (l : List Char) :
    matchNote (c :: l) = none := by
  have : dropLit startLit (c :: l) = none := by
    show (if c = '\x7b' then dropLit "\x7b#note".data l else none) = none
    simp [hc]
  simp [matchNote, this]

theorem matchBody_region {key val : List Char} (post : List Char)
    (hkey : ∀ c ∈ key, c ≠ '\x7d') (hval : ∀ c ∈ val, c ≠ '\x7b') :
    matchBody (key ++ '\x7d' :: '\x7d' :: val ++ endLit ++ post) =
      some (key, val, post) := by
  unfold matchBody
  have e1 : key ++ '\x7d' :: '\x7d' :: val ++ endLit ++ post =
      key ++ '\x7d' :: ('\x7d' :: (val ++ endLit ++ post)) := by simp
  rw [e1, splitAtChar_append _ hkey]
  have e2 : val ++ endLit ++ post =
      val ++ '\x7b' :: ("\x7b#note end\x7d\x7d".data ++ post) := by
    simp [endLit]
  simp only []
  rw [e2, splitAtChar_append _ hval]
  have e3 : '\x7b' :: ("\x7b#note end\x7d\x7d".data ++ post) = endLit ++ post := by
    simp [endLit]
  simp only []
  rw [e3, dropLit_append]

theorem matchNote_region {key val : List Char} (post : List Char)
    (hkey : ∀ c ∈ key, c ≠ '\x7d') (hval : ∀ c ∈ val, c ≠ '\x7b') :
    matchNote (regionOf key val ++ post) = some (key, val, post) := by
  have e : regionOf key val ++ post =
      startLit ++ (' ' :: (key ++ '\x7d' :: '\x7d' :: val ++ endLit ++ post)) := by
    simp [regionOf]
  rw [e]
  unfold matchNote
  rw [dropLit_append]
  exact matchBody_region post hkey hval

/-! ### Fuel irrelevance and step equations for the scans -/

theorem scanAux_congr : ∀ f1 f2 l, l.length ≤ f1 → l.length ≤ f2 →
    scanAux f1 l = scanAux f2 l := by
  intro f1
  induction f1 with
  | zero =>
    intro f2 l h1 h2
    have : l = [] := by
      cases l with
      | nil => rfl
      | cons c cs => simp at h1
    subst this
    cases f2 <;> rfl
  | succ f ih =>
    intro f2 l h1 h2
    cases l with
    | nil => cases f2 <;> rfl
    | cons c rest =>
      cases f2 with
      | zero => simp at h2
      | succ f2' =>
        simp only [scanAux]
        cases hm : matchNote (c :: rest) with
        | none =>
          exact ih f2' rest (by simp at h1; omega) (by simp at h2; omega)
        | some t =>
          obtain ⟨k, v, r⟩ := t
          have hr := matchNote_length hm
          simp only [List.length_cons] at h1 h2 hr
          exact congrArg (List.cons (k, v)) (ih f2' r (by omega) (by omega))

theorem scanCaps_cons_some {l k v r : List Char} (h : matchNote l = some (k, v, r)) :
    scanCaps l = (k, v) :: scanCaps r := by
  cases l with
  | nil => rw [matchNote_nil] at h; cases h
  | cons c rest =>
    have hr := matchNote_length h
    simp only [List.length_cons] at hr
    show scanAux (rest.length + 1) (c :: rest) = _
    simp only [scanAux, h]
    rw [scanAux_congr rest.length r.length r (by omega) le_rfl]
    rfl

theorem scanCaps_cons_none {c : Char} {rest : List Char}
    (h : matchNote (c :: rest) = none) :
    scanCaps (c :: rest) = scanCaps rest := by
  show scanAux (rest.length + 1) (c :: rest) = _
  simp only [scanAux, h]
  rfl

theorem cleanAux_congr : ∀ f1 f2 l, l.length ≤ f1 → l.length ≤ f2 →
    cleanAux f1 l = cleanAux f2 l := by
  intro f1
  induction f1 with
  | zero =>
    intro f2 l h1 h2
    have : l = [] := by
      cases l with
      | nil => rfl
      | cons c cs => simp at h1
    subst this
    cases f2 <;> rfl
  | succ f ih =>
    intro f2 l h1 h2
    cases l with
    | nil => cases f2 <;> rfl
    | cons c rest =>
      cases f2 with
      | zero => simp at h2
      | succ f2' =>
        simp only [cleanAux]
        cases hm : matchNote (c :: rest) with
        | none =>
          exact congrArg (List.cons c) (ih f2' rest (by simp at h1; omega) (by simp at h2; omega))
        | some t =>
          obtain ⟨k, v, r⟩ := t
          have hr := matchNote_length hm
          simp only [List.length_cons] at h1 h2 hr
          exact congrArg (fun x => v ++ x) (ih f2' r (by omega) (by omega))

theorem cleanList_cons_some {l k v r : List Char} (h : matchNote l = some (k, v, r)) :
    cleanList l = v ++ cleanList r := by
  cases l with
  | nil => rw [matchNote_nil] at h; cases h
  | cons c rest =>
    have hr := matchNote_length h
    simp only [List.length_cons] at hr
    show cleanAux (rest.length + 1) (c :: rest) = _
    simp only [cleanAux, h]
    rw [cleanAux_congr rest.length r.length r (by omega) le_rfl]
    rfl

theorem cleanList_cons_none {c : Char} {rest : List Char}
    (h : matchNote (c :: rest) = none) :
    cleanList (c :: rest) = c :: cleanList rest := by
  show cleanAux (rest.length + 1) (c :: rest) = _
  simp only [cleanAux, h]
  rfl

/-! ### Compositional behaviour on a marker-delimited region -/

theorem scanCaps_append_region {pre key val : List Char} (post : List Char)
    (hpre : ∀ c ∈ pre, c ≠ '\x7b')
    (hkey : ∀ c ∈ key, c ≠ '\x7d') (hval : ∀ c ∈ val, c ≠ '\x7b') :
    scanCaps (pre ++ regionOf key val ++ post) = (key, val) :: scanCaps post := by
  induction pre with
  | nil =>
    simp only [List.nil_append]
    exact scanCaps_cons_some (matchNote_region post hkey hval)
  | cons c cs ih =>
    have hc : c ≠ '\x7b' := hpre c (by simp)
    have e : (c :: cs) ++ regionOf key val ++ post =
        c :: (cs ++ regionOf key val ++ post) := by simp
    rw [e, scanCaps_cons_none (matchNote_cons_ne hc _),
      ih (fun x hx => hpre x (by simp [hx]))]

theorem cleanList_append_region {pre key val : List Char} (post : List Char)
    (hpre : ∀ c ∈ pre, c ≠ '\x7b')
    (hkey : ∀ c ∈ key, c ≠ '\x7d') (hval : ∀ c ∈ val, c ≠ '\x7b') :
    cleanList (pre ++ regionOf key val ++ post) = pre ++ val ++ cleanList post := by
  induction pre with
  | nil =>
    simp only [List.nil_append]
    exact cleanList_cons_some (matchNote_region post hkey hval)
  | cons c cs ih =>
    have hc : c ≠ '\x7b' := hpre c (by simp)
    have e : (c :: cs) ++ regionOf key val ++ post =
        c :: (cs ++ regionOf key val ++ post) := by simp
    rw [e, cleanList_cons_none (matchNote_cons_ne hc _),
      ih (fun x hx => hpre x (by simp [hx]))]
    simp

/-! ### Claim C2: what replaces a matched region in the cleaned text -/

/-- Claim C2, counterexample: the spec says a matched region is replaced by
the *trimmed* payload, but `replace_all(content, "$val")` substitutes the raw
capture.  On `"A \x7b\x7b#note k\x7d\x7d B \x7b\x7b#note end\x7d\x7d C"` the
code produces `"A  B  C"` (raw payload `" B "`), not the `"A B C"` the spec
predicts. -/
theorem C2_counterexample :
    cleanText "A \x7b\x7b#note k\x7d\x7d B \x7b\x7b#note end\x7d\x7d C" = "A  B  C" ∧
    specCleanText "A \x7b\x7b#note k\x7d\x7d B \x7b\x7b#note end\x7d\x7d C" = "A B C" ∧
    cleanText "A \x7b\x7b#note k\x7d\x7d B \x7b\x7b#note end\x7d\x7d C" ≠
      specCleanText "A \x7b\x7b#note k\x7d\x7d B \x7b\x7b#note end\x7d\x7d C" :=
  ⟨rfl, rfl, by decide⟩

/-- Claim C2 (amended): the cleaned text equals the document text with each
matched region (start marker through end marker) replaced by the *raw*
payload text (not trimmed), all surrounding document text unchanged. -/
theorem C2_clean_replaces_raw_payload (pre key val post : List Char)
    (hpre : ∀ c ∈ pre, c ≠ '\x7b') (hkey : ∀ c ∈ key, c ≠ '\x7d')
    (hval : ∀ c ∈ val, c ≠ '\x7b') :
    cleanList (pre ++ regionOf key val ++ post) = pre ++ val ++ cleanList post ∧
    cleanText (String.mk (pre ++ regionOf key val ++ post)) =
      String.mk (pre ++ val ++ cleanList post) := by
  refine ⟨cleanList_append_region post hpre hkey hval, ?_⟩
  show String.mk (cleanList (pre ++ regionOf key val ++ post)) = _
  rw [cleanList_append_region post hpre hkey hval]

/-- Witness for C2: the amended replacement equation at a concrete padded
payload. -/
theorem C2_witness :
    cleanList ("A ".data ++ regionOf "k".data " B ".data ++ " C".data) =
      "A ".data ++ " B ".data ++ cleanList " C".data :=
  (C2_clean_replaces_raw_payload "A ".data "k".data " B ".data " C".data
    (by decide) (by decide) (by decide)).1

/-! ### Necessity: the shape of every recognized region -/

theorem dropLit_inv : ∀ {p l r : List Char}, dropLit p l = some r → l = p ++ r := by
  intro p
  induction p with
  | nil =>
    intro l r h
    simp only [dropLit, Option.some.injEq] at h
    simp [h]
  | cons c cs ih =>
    intro l r h
    cases l with
    | nil => simp [dropLit] at h
    | cons x xs =>
      by_cases hx : x = c
      · subst hx
        simp only [dropLit, if_pos rfl] at h
        exact congrArg (List.cons x) (ih h)
      · simp [dropLit, hx] at h

theorem splitAtChar_fst_free (stop : Char) : ∀ (l : List Char),
    ∀ c ∈ (splitAtChar stop l).1, c ≠ stop := by
  intro l
  induction l with
  | nil => intro c hc; simp [splitAtChar] at hc
  | cons x xs ih =>
    intro c hc
    by_cases hx : x = stop
    · simp [splitAtChar, hx] at hc
    · have he : (splitAtChar stop (x :: xs)).1 = x :: (splitAtChar stop xs).1 := by
        simp [splitAtChar, hx]
      rw [he] at hc
      rcases List.mem_cons.mp hc with h | h
      · rw [h]; exact hx
      · exact ih c h

/-- Inversion of the post-space part of the pattern: a successful match pins
the input down to key, `\x7d\x7d`, payload, end marker and remainder, with
the key free of `\x7d` and the payload free of `\x7b`. -/
theorem matchBody_inv {r2 k v r : List Char} (h : matchBody r2 = some (k, v, r)) :
    (∀ c ∈ k, c ≠ '\x7d') ∧ (∀ c ∈ v, c ≠ '\x7b') ∧
    r2 = k ++ '\x7d' :: '\x7d' :: v ++ endLit ++ r := by
  have hpk := splitAtChar_eq '\x7d' r2
  simp only [matchBody] at h
  split at h
  case _ r4 heq =>
    have hpv := splitAtChar_eq '\x7b' r4
    split at h
    · cases h
    case _ r6 heq6 =>
      simp only [Option.some.injEq, Prod.mk.injEq] at h
      obtain ⟨hk1, hv1, hr1⟩ := h
      subst hk1
      subst hv1
      subst hr1
      refine ⟨splitAtChar_fst_free '\x7d' r2, splitAtChar_fst_free '\x7b' r4, ?_⟩
      have hr2 : r2 = (splitAtChar '\x7d' r2).1 ++ ('\x7d' :: '\x7d' :: r4) := by
        conv_lhs => rw [← hpk]
        rw [heq]
      have hr4 : r4 = (splitAtChar '\x7b' r4).1 ++ (endLit ++ r6) := by
        conv_lhs => rw [← hpv]
        rw [dropLit_inv heq6]
      rw [hr4] at hr2
      conv_lhs => rw [hr2]
      simp [List.append_assoc]
  · cases h

/-- Inversion of the whole pattern: every successful anchored match is on a
marker-delimited region, in the spaced or the space-less marker form. -/
theorem matchNote_inv {l k v r : List Char} (h : matchNote l = some (k, v, r)) :
    (∀ c ∈ k, c ≠ '\x7d') ∧ (∀ c ∈ v, c ≠ '\x7b') ∧
    (l = startLit ++ (' ' :: (k ++ '\x7d' :: '\x7d' :: v ++ endLit ++ r)) ∨
     l = startLit ++ (k ++ '\x7d' :: '\x7d' :: v ++ endLit ++ r)) := by
  simp only [matchNote] at h
  split at h
  · cases h
  case _ r1 heq1 =>
    split at h
    case _ a t =>
      obtain ⟨hk, hv, ht⟩ := matchBody_inv h
      have hl : l = startLit ++ (' ' :: t) := dropLit_inv heq1
      refine ⟨hk, hv, Or.inl ?_⟩
      rw [hl, ht]
    case _ =>
      obtain ⟨hk, hv, ht⟩ := matchBody_inv h
      have hl : l = startLit ++ r1 := dropLit_inv heq1
      refine ⟨hk, hv, Or.inr ?_⟩
      rw [hl, ht]

/-- The `" ?"` in the pattern makes the space optional: a region written
without the space after `#note` is matched too, as long as the key does not
itself start with a space (which the greedy space branch would consume). -/
theorem matchNote_region_nospace {key val : List Char} (post : List Char)
    (hkey : ∀ c ∈ key, c ≠ '\x7d') (hval : ∀ c ∈ val, c ≠ '\x7b')
    (hhead : key.head? ≠ some ' ') :
    matchNote (startLit ++ (key ++ '\x7d' :: '\x7d' :: val ++ endLit ++ post)) =
      some (key, val, post) := by
  cases key with
  | nil => exact @matchBody_region [] val post (by simp) hval
  | cons c kt =>
    have hc : c ≠ ' ' := fun he => hhead (by rw [he]; rfl)
    unfold matchNote
    rw [dropLit_append]
    split
    next heq => simp at heq
    next r1 heq =>
      injection heq with hr1
      subst hr1
      split
      next t heq2 =>
        exfalso
        simp only [List.cons_append] at heq2
        injection heq2 with h1 h2
        exact hc h1
      next =>
        exact matchBody_region post hkey hval

/-- Scanning over a `\x7b`-free prefix finds exactly the match anchored after
it, whatever form the matched region takes. -/
theorem scanCaps_append_of_match {pre : List Char} (hpre : ∀ c ∈ pre, c ≠ '\x7b')
    {l k v r : List Char} (hm : matchNote l = some (k, v, r)) :
    scanCaps (pre ++ l) = (k, v) :: scanCaps r := by
  induction pre with
  | nil =>
    rw [List.nil_append]
    exact scanCaps_cons_some hm
  | cons c cs ih =>
    have hc : c ≠ '\x7b' := hpre c (by simp)
    have e : (c :: cs) ++ l = c :: (cs ++ l) := by simp
    rw [e, scanCaps_cons_none (matchNote_cons_ne hc _),
      ih (fun x hx => hpre x (by simp [hx]))]

/-- Necessity over the whole scan: every capture pair the scanner produces
has a `\x7d`-free key and a `\x7b`-free payload, and the document decomposes
around a marker-delimited region carrying exactly those captures. -/
theorem scanCaps_inv : ∀ (n : Nat) (l : List Char), l.length ≤ n →
    ∀ k v : List Char, (k, v) ∈ scanCaps l →
    (∀ c ∈ k, c ≠ '\x7d') ∧ (∀ c ∈ v, c ≠ '\x7b') ∧
    ∃ pre post,
      l = pre ++ startLit ++ (' ' :: (k ++ '\x7d' :: '\x7d' :: v ++ endLit ++ post)) ∨
      l = pre ++ startLit ++ (k ++ '\x7d' :: '\x7d' :: v ++ endLit ++ post) := by
  intro n
  induction n with
  | zero =>
    intro l hlen k v hmem
    have hl : l = [] := by
      cases l with
      | nil => rfl
      | cons a b => simp at hlen
    subst hl
    have h0 : scanCaps ([] : List Char) = [] := rfl
    rw [h0] at hmem
    cases hmem
  | succ n ih =>
    intro l hlen k v hmem
    cases l with
    | nil =>
      have h0 : scanCaps ([] : List Char) = [] := rfl
      rw [h0] at hmem
      cases hmem
    | cons c rest =>
      have hlen' : rest.length ≤ n := by
        simp only [List.length_cons] at hlen
        omega
      cases hm : matchNote (c :: rest) with
      | none =>
        rw [scanCaps_cons_none hm] at hmem
        obtain ⟨hk, hv, pre, post, hor⟩ := ih rest hlen' k v hmem
        refine ⟨hk, hv, c :: pre, post, ?_⟩
        rcases hor with hcase | hcase
        · exact Or.inl (congrArg (List.cons c) hcase)
        · exact Or.inr (congrArg (List.cons c) hcase)
      | some t =>
        obtain ⟨k', v', r⟩ := t
        rw [scanCaps_cons_some hm] at hmem
        rcases List.mem_cons.mp hmem with hEq | hmem'
        · injection hEq with h1 h2
          subst h1
          subst h2
          obtain ⟨hk, hv, hor⟩ := matchNote_inv hm
          refine ⟨hk, hv, [], r, ?_⟩
          rcases hor with hcase | hcase
          · exact Or.inl hcase
          · exact Or.inr hcase
        · have hrlen : r.length ≤ n := by
            have hlen2 := matchNote_length hm
            simp only [List.length_cons] at hlen2 hlen
            omega
          obtain ⟨hk, hv, pre, post, hor⟩ := ih r hrlen k v hmem'
          obtain ⟨-, -, hdec⟩ := matchNote_inv hm
          rcases hdec with hd | hd
          · refine ⟨hk, hv,
              startLit ++ (' ' :: (k' ++ '\x7d' :: '\x7d' :: v' ++ endLit ++ pre)),
              post, ?_⟩
            rcases hor with hcase | hcase
            · refine Or.inl ?_
              rw [hd, hcase]
              simp [List.append_assoc]
            · refine Or.inr ?_
              rw [hd, hcase]
              simp [List.append_assoc]
          · refine ⟨hk, hv,
              startLit ++ (k' ++ '\x7d' :: '\x7d' :: v' ++ endLit ++ pre), post, ?_⟩
            rcases hor with hcase | hcase
            · refine Or.inl ?_
              rw [hd, hcase]
              simp [List.append_assoc]
            · refine Or.inr ?_
              rw [hd, hcase]
              simp [List.append_assoc]

/-! ### Claim C3: which regions are recognized -/

/-- Claim C3, counterexample.  Part 1: a text delimited by the start marker
`\x7b\x7b#note k\x7d\x7d` and the end marker with payload `a\x7bb` in
between is recognized as no region, because the payload class `[^\x7b]*`
cannot cross the `\x7b`.  Part 2: a text delimited by a start marker whose
key `a\x7db` is free text up to the next `\x7d\x7d` (as the claim reads it)
is recognized as no region either, because the key class `[^\x7d]*` stops at
the first `\x7d`.  Part 3: a marker *without* the space after `#note` is
nonetheless recognized (the pattern's `" ?"`), so the space is optional.
"Recognized exactly when delimited by `\x7b\x7b#note <key>\x7d\x7d` with the
payload running to the end marker" is therefore false in both directions of
its region syntax. -/
theorem C3_counterexample :
    (("\x7b\x7b#note k\x7d\x7da\x7bb\x7b\x7b#note end\x7d\x7d" : String) =
        "\x7b\x7b#note " ++ "k" ++ "\x7d\x7d" ++ "a\x7bb" ++ "\x7b\x7b#note end\x7d\x7d" ∧
      scanCaps "\x7b\x7b#note k\x7d\x7da\x7bb\x7b\x7b#note end\x7d\x7d".data = [] ∧
      parseExtracts "n" "\x7b\x7b#note k\x7d\x7da\x7bb\x7b\x7b#note end\x7d\x7d" = []) ∧
    (("\x7b\x7b#note a\x7db\x7d\x7dX\x7b\x7b#note end\x7d\x7d" : String) =
        "\x7b\x7b#note " ++ "a\x7db" ++ "\x7d\x7d" ++ "X" ++ "\x7b\x7b#note end\x7d\x7d" ∧
      scanCaps "\x7b\x7b#note a\x7db\x7d\x7dX\x7b\x7b#note end\x7d\x7d".data = [] ∧
      parseExtracts "n" "\x7b\x7b#note a\x7db\x7d\x7dX\x7b\x7b#note end\x7d\x7d" = []) ∧
    scanCaps "\x7b\x7b#notek\x7d\x7dx\x7b\x7b#note end\x7d\x7d".data =
      [("k".data, "x".data)] :=
  ⟨⟨rfl, rfl, rfl⟩, ⟨rfl, rfl, rfl⟩, rfl⟩

/-- Claim C3 (amended), both directions of the "exactly when".
Necessity: every capture pair the scanner recognizes has a `\x7d`-free key
and a `\x7b`-free payload, and the document decomposes around the
marker-delimited region (space after `#note` present or absent) carrying
exactly those captures.  Sufficiency: a marker-delimited region whose key is
`\x7d`-free and whose payload is `\x7b`-free, reached over `\x7b`-free text,
is recognized — in the spaced form, and in the space-less form when the key
does not start with a space; the payload is captured verbatim between the
markers, across lines, and trimmed at extraction. -/
theorem C3_region_recognition :
    (∀ l k v : List Char, (k, v) ∈ scanCaps l →
      (∀ c ∈ k, c ≠ '\x7d') ∧ (∀ c ∈ v, c ≠ '\x7b') ∧
      ∃ pre post,
        l = pre ++ startLit ++ (' ' :: (k ++ '\x7d' :: '\x7d' :: v ++ endLit ++ post)) ∨
        l = pre ++ startLit ++ (k ++ '\x7d' :: '\x7d' :: v ++ endLit ++ post)) ∧
    (∀ pre key val post : List Char,
      (∀ c ∈ pre, c ≠ '\x7b') → (∀ c ∈ key, c ≠ '\x7d') → (∀ c ∈ val, c ≠ '\x7b') →
      scanCaps (pre ++ regionOf key val ++ post) = (key, val) :: scanCaps post) ∧
    (∀ pre key val post : List Char,
      (∀ c ∈ pre, c ≠ '\x7b') → (∀ c ∈ key, c ≠ '\x7d') → (∀ c ∈ val, c ≠ '\x7b') →
      key.head? ≠ some ' ' →
      scanCaps (pre ++ (startLit ++ (key ++ '\x7d' :: '\x7d' :: val ++ endLit ++ post))) =
        (key, val) :: scanCaps post) ∧
    (∀ (key val : List Char) (name : String),
      (∀ c ∈ key, c ≠ '\x7d') → (∀ c ∈ val, c ≠ '\x7b') →
      parseExtracts name (String.mk (regionOf key val)) =
        [⟨parseKeys (trimStr (String.mk key)), "### " ++ name⟩,
         ⟨parseKeys (trimStr (String.mk key)), trimStr (String.mk val)⟩]) := by
  refine ⟨?_, ?_, ?_, ?_⟩
  · intro l k v hmem
    exact scanCaps_inv l.length l le_rfl k v hmem
  · intro pre key val post hpre hkey hval
    exact scanCaps_append_region post hpre hkey hval
  · intro pre key val post hpre hkey hval hhead
    exact scanCaps_append_of_match hpre (matchNote_region_nospace post hkey hval hhead)
  · intro key val name hkey hval
    show parseLoop name (scanCaps (regionOf key val)) [] = _
    have hpre' : ∀ c ∈ ([] : List Char), c ≠ '\x7b' := by simp
    have h0 := scanCaps_append_region ([] : List Char) hpre' hkey hval
    simp only [List.nil_append, List.append_nil] at h0
    rw [h0]
    simp [parseLoop, scanCaps, scanAux]

/-- Witness for C3: the decomposition of a concrete recognized document,
recognition of concrete spaced and space-less regions with context, and the
two extracts of a single-region document. -/
theorem C3_witness :
    ((∀ c ∈ "k".data, c ≠ '\x7d') ∧ (∀ c ∈ "B".data, c ≠ '\x7b') ∧
      ∃ pre post,
        "A \x7b\x7b#note k\x7d\x7dB\x7b\x7b#note end\x7d\x7d C".data =
          pre ++ startLit ++
            (' ' :: ("k".data ++ '\x7d' :: '\x7d' :: "B".data ++ endLit ++ post)) ∨
        "A \x7b\x7b#note k\x7d\x7dB\x7b\x7b#note end\x7d\x7d C".data =
          pre ++ startLit ++
            ("k".data ++ '\x7d' :: '\x7d' :: "B".data ++ endLit ++ post)) ∧
    scanCaps ("A ".data ++ regionOf "k".data "B\nC".data ++ "!".data) =
      ("k".data, "B\nC".data) :: scanCaps "!".data ∧
    scanCaps ("A ".data ++ (startLit ++
        ("k".data ++ '\x7d' :: '\x7d' :: "x".data ++ endLit ++ "!".data))) =
      ("k".data, "x".data) :: scanCaps "!".data ∧
    parseExtracts "doc" (String.mk (regionOf "k".data "B\nC".data)) =
      [⟨["k"], "### doc"⟩, ⟨["k"], "B\nC"⟩] := by
  refine ⟨C3_region_recognition.1
      "A \x7b\x7b#note k\x7d\x7dB\x7b\x7b#note end\x7d\x7d C".data
      "k".data "B".data (by decide),
    C3_region_recognition.2.1 "A ".data "k".data "B\nC".data "!".data
      (by decide) (by decide) (by decide),
    C3_region_recognition.2.2.1 "A ".data "k".data "x".data "!".data
      (by decide) (by decide) (by decide) (by decide), ?_⟩
  rw [C3_region_recognition.2.2.2 "k".data "B\nC".data "doc" (by decide) (by decide)]
  decide

/-! ### Claim C4: the single inline region example -/

/-- Claim C4: `"A \x7b\x7b#note k\x7d\x7dB\x7b\x7b#note end\x7d\x7d C"`
yields exactly the heading and payload extracts and cleans to `"A B C"`. -/
theorem C4_single_inline_region (name : String) :
    parseExtracts name "A \x7b\x7b#note k\x7d\x7dB\x7b\x7b#note end\x7d\x7d C" =
      [⟨["k"], "### " ++ name⟩, ⟨["k"], "B"⟩] ∧
    cleanText "A \x7b\x7b#note k\x7d\x7dB\x7b\x7b#note end\x7d\x7d C" = "A B C" :=
  ⟨rfl, rfl⟩

/-! ### Claim C5: heading deduplication for a repeated key -/

/-- Claim C5: a document whose scan yields two regions with the identical raw
key produces exactly one heading extract followed by the two payload
extracts, the heading immediately preceding the first payload; the heading is
deduplicated on the (trimmed) raw key string. -/
theorem C5_heading_dedup (name text : String) (k v1 v2 : List Char)
    (h : scanCaps text.data = [(k, v1), (k, v2)]) :
    parseExtracts name text =
      [⟨parseKeys (trimStr (String.mk k)), "### " ++ name⟩,
       ⟨parseKeys (trimStr (String.mk k)), trimStr (String.mk v1)⟩,
       ⟨parseKeys (trimStr (String.mk k)), trimStr (String.mk v2)⟩] := by
  show parseLoop name (scanCaps text.data) [] = _
  rw [h]
  simp [parseLoop]

/-- Witness for C5: a concrete document with two identically keyed regions. -/
theorem C5_witness :
    scanCaps ("\x7b\x7b#note k\x7d\x7da\x7b\x7b#note end\x7d\x7d\x7b\x7b#note k\x7d\x7db\x7b\x7b#note end\x7d\x7d" : String).data =
      [("k".data, "a".data), ("k".data, "b".data)] ∧
    parseExtracts "n" "\x7b\x7b#note k\x7d\x7da\x7b\x7b#note end\x7d\x7d\x7b\x7b#note k\x7d\x7db\x7b\x7b#note end\x7d\x7d" =
      [⟨["k"], "### n"⟩, ⟨["k"], "a"⟩, ⟨["k"], "b"⟩] := by
  refine ⟨rfl, ?_⟩
  rw [C5_heading_dedup "n"
    "\x7b\x7b#note k\x7d\x7da\x7b\x7b#note end\x7d\x7d\x7b\x7b#note k\x7d\x7db\x7b\x7b#note end\x7d\x7d"
    "k".data "a".data "b".data rfl]
  decide

/-! ### Claim C9: dedup discriminant is the raw key, not the parsed path -/

/-- Claim C9: two regions whose raw keys differ only by whitespace around the
pipe parse to the same KeyPath but are deduplicated separately, so the
extract list carries two headings with an identical KeyPath. -/
theorem C9_dedup_uses_raw_key :
    parseExtracts "n"
      "\x7b\x7b#note a|b\x7d\x7dx\x7b\x7b#note end\x7d\x7d \x7b\x7b#note a |b\x7d\x7dy\x7b\x7b#note end\x7d\x7d" =
      [⟨["b", "a"], "### n"⟩, ⟨["b", "a"], "x"⟩,
       ⟨["b", "a"], "### n"⟩, ⟨["b", "a"], "y"⟩] ∧
    parseKeys "a|b" = parseKeys "a |b" ∧
    ("a|b" : String) ≠ "a |b" :=
  ⟨by decide, by decide, by decide⟩

/-! ### Claim C1: key reversal and grouping order -/

/-- Claim C1, counterexample: the spec's example says key text `"sub|main"`
yields KeyPath `["sub", "main"]`; the code reverses the split order, so the
KeyPath is `["main", "sub"]`. -/
theorem C1_counterexample : parseKeys "sub|main" ≠ ["sub", "main"] := by
  decide

/-- Claim C1 (amended): `"sub|main"` parses to KeyPath `["main", "sub"]`;
grouping pops `"sub"` first and `"main"` second, so the first-written segment
becomes the last KeyPath element, is consumed first, and labels the
*outermost* (top-level) grouping node, with `"main"` the child below it. -/
theorem C1_key_reversal :
    parseKeys "sub|main" = ["main", "sub"] ∧
    popKey ⟨parseKeys "sub|main", "v"⟩ = some ("sub", ⟨["main"], "v"⟩) ∧
    popKey ⟨["main"], "v"⟩ = some ("main", ⟨[], "v"⟩) ∧
    (childChapters (generate_chapter [⟨parseKeys "sub|main", "v"⟩] "note" [] [99])).map
      Chapter.name = ["sub"] ∧
    ((childChapters (generate_chapter [⟨parseKeys "sub|main", "v"⟩] "note" [] [99])).map
      (fun c => (childChapters c).map Chapter.name)) = [["main"]] :=
  ⟨by decide, by decide, by decide, rfl, rfl⟩

/-! ### Claim C7: empty accumulator short-circuit -/

/-- Claim C7: when the extract accumulator is empty after scanning every
iterated document (and the configuration resolves), `run` returns the
original collection unchanged — no aggregate chapter is appended. -/
theorem C7_empty_accumulator_identity (ctx : PreprocessorContext) (book : Book)
    (n : String) (hname : nameFromConfig ctx = some n)
    (hempty : collectExtracts book = []) :
    run ctx book = some book := by
  have hrw : runWithName n book = book := by
    unfold runWithName
    rw [hempty]
    rfl
  simp [run, hname, hrw]

/-- Witness for C7: a two-item book without any annotation region. -/
theorem C7_witness :
    nameFromConfig ⟨none⟩ = some "note" ∧
    collectExtracts [BookItem.chapter (.mk "a" "hello" none [] none none []),
      .separator] = [] ∧
    run ⟨none⟩ [BookItem.chapter (.mk "a" "hello" none [] none none []), .separator] =
      some [BookItem.chapter (.mk "a" "hello" none [] none none []), .separator] :=
  ⟨rfl, rfl, C7_empty_accumulator_identity _ _ "note" rfl rfl⟩

/-! ### Claim C8: the `name` configuration option -/

/-- Claim C8: an absent `name` option (or an absent preprocessor table)
defaults silently to `"note"`; a present but non-string value makes `run`
fail (the modelled `unwrap` panic) before any document is processed, for
every book alike. -/
theorem C8_config_name_option :
    (∀ book : Book, run ⟨none⟩ book = some (runWithName "note" book)) ∧
    (∀ (cfg : List (String × TomlValue)) (book : Book), cfg.lookup "name" = none →
      run ⟨some cfg⟩ book = some (runWithName "note" book)) ∧
    (∀ (cfg : List (String × TomlValue)) (book : Book) (v : TomlValue),
      cfg.lookup "name" = some v → v.as_str = none →
      run ⟨some cfg⟩ book = none) := by
  refine ⟨fun book => rfl, fun cfg book h => ?_, fun cfg book v h1 h2 => ?_⟩
  · simp [run, nameFromConfig, h]
  · simp [run, nameFromConfig, h1, h2]

/-- Witness for C8: a table without `name`, and a table with a boolean
`name`. -/
theorem C8_witness :
    run ⟨some [("other", TomlValue.str "x")]⟩ [] = some (runWithName "note" []) ∧
    run ⟨some [("name", TomlValue.boolean true)]⟩ [] = none :=
  ⟨C8_config_name_option.2.1 [("other", TomlValue.str "x")] [] rfl,
   C8_config_name_option.2.2 [("name", TomlValue.boolean true)] []
     (TomlValue.boolean true) rfl rfl⟩

/-! ### Claim C10: the node body is a heading plus appended paragraphs -/

theorem popKey_eq_none_iff (e : Extract) : popKey e = none ↔ e.key = [] := by
  unfold popKey
  cases h : e.key.getLast? with
  | none => simpa using List.getLast?_eq_none_iff.mp h
  | some k =>
    simp only []
    constructor
    · intro hc; cases hc
    · intro hk
      rw [hk] at h
      cases h

theorem popKey_some_facts {e : Extract} {k : String} {e' : Extract}
    (h : popKey e = some (k, e')) :
    e.key ≠ [] ∧ e.key.length = e'.key.length + 1 ∧ e'.val = e.val := by
  unfold popKey at h
  cases hl : e.key.getLast? with
  | none => rw [hl] at h; cases h
  | some k' =>
    rw [hl] at h
    simp only [Option.some.injEq, Prod.mk.injEq] at h
    obtain ⟨-, he⟩ := h
    have hne : e.key ≠ [] := by
      intro hk
      rw [hk] at hl
      cases hl
    have hdl : e'.key = e.key.dropLast := by rw [← he]
    have hlen : e.key.length ≥ 1 := List.length_pos.mpr hne
    refine ⟨hne, ?_, by rw [← he]⟩
    rw [hdl, List.length_dropLast]
    omega

theorem str_append_ne_empty (b y : String) (hb : b ≠ "") : b ++ y ≠ "" := by
  intro h
  apply hb
  have hd : b.data ++ y.data = ([] : List Char) := congrArg String.data h
  have hb' : b.data = [] := (List.append_eq_nil.mp hd).1
  cases b with
  | mk d =>
    have hd' : d = [] := hb'
    rw [hd']

theorem distribute_fst (es : List Extract) (b : String)
    (g : List (String × List Extract)) (hb : b ≠ "") :
    (distribute (b, g) es).1 =
      List.foldl (fun acc v => acc ++ "\n\n" ++ v) b (unkeyedVals es) ∧
    (distribute (b, g) es).1 ≠ "" := by
  induction es generalizing b g with
  | nil => exact ⟨rfl, hb⟩
  | cons e rest ih =>
    cases hk : popKey e with
    | none =>
      have hkey : e.key = [] := (popKey_eq_none_iff e).mp hk
      have hstep : distribute (b, g) (e :: rest) =
          distribute (appendBody b e.val, g) rest := by
        simp only [distribute, hk]
      have hab : appendBody b e.val = b ++ "\n\n" ++ e.val := by
        simp [appendBody, hb]
      have hne : appendBody b e.val ≠ "" := by
        rw [hab, String.append_assoc]
        exact str_append_ne_empty b _ hb
      have hu : unkeyedVals (e :: rest) = e.val :: unkeyedVals rest := by
        simp [unkeyedVals, hkey]
      obtain ⟨h1, h2⟩ := ih (appendBody b e.val) g hne
      rw [hstep, hu]
      exact ⟨by rw [h1, hab]; rfl, h2⟩
    | some p =>
      obtain ⟨k, e'⟩ := p
      obtain ⟨hne, -, -⟩ := popKey_some_facts hk
      have hstep : distribute (b, g) (e :: rest) =
          distribute (b, addToGroups g k e') rest := by
        simp only [distribute, hk]
      have hu : unkeyedVals (e :: rest) = unkeyedVals rest := by
        simp [unkeyedVals, List.isEmpty_iff, hne]
      obtain ⟨h1, h2⟩ := ih b (addToGroups g k e') hb
      rw [hstep, hu]
      exact ⟨h1, h2⟩

theorem foldl_body_ex (l : List String) (b : String) :
    ∃ r, List.foldl (fun acc v => acc ++ "\n\n" ++ v) b l = b ++ r := by
  induction l generalizing b with
  | nil => exact ⟨"", by simp [String.append_empty]⟩
  | cons v vs ih =>
    obtain ⟨r, hr⟩ := ih (b ++ "\n\n" ++ v)
    refine ⟨"\n\n" ++ v ++ r, ?_⟩
    have hstep : List.foldl (fun acc v => acc ++ "\n\n" ++ v) b (v :: vs) =
        List.foldl (fun acc v => acc ++ "\n\n" ++ v) (b ++ "\n\n" ++ v) vs := rfl
    rw [hstep, hr]
    simp [String.append_assoc]

/-- Claim C10: every node built by the tree builder has a non-empty body that
begins with `"## "` followed by the ancestor labels and own label joined by
`" / "`, with each unkeyed extract's value appended in arrival order
separated by blank lines — so the overwrite-empty-body branch of the loop is
unreachable. -/
theorem C10_body_structure (es : List Extract) (n : String) (p : List String)
    (s : List Nat) :
    (generate_chapter es n p s).content =
      List.foldl (fun acc v => acc ++ "\n\n" ++ v)
        ("## " ++ joinSep " / " (p ++ [n])) (unkeyedVals es) ∧
    (∃ rest, (generate_chapter es n p s).content =
      ("## " ++ joinSep " / " (p ++ [n])) ++ rest) ∧
    (generate_chapter es n p s).content ≠ "" := by
  have hb : ("## " ++ joinSep " / " (p ++ [n])) ≠ "" :=
    str_append_ne_empty "## " _ (by decide)
  have hc : (generate_chapter es n p s).content =
      (distribute ("## " ++ joinSep " / " (p ++ [n]), []) es).1 := rfl
  obtain ⟨h1, h2⟩ := distribute_fst es ("## " ++ joinSep " / " (p ++ [n])) [] hb
  refine ⟨by rw [hc, h1], ?_, by rw [hc]; exact h2⟩
  obtain ⟨r, hr⟩ := foldl_body_ex (unkeyedVals es) ("## " ++ joinSep " / " (p ++ [n]))
  exact ⟨r, by rw [hc, h1, hr]⟩

/-! ### The string order used by the sibling sort -/

theorem char_toNat_inj {a b : Char} (h : a.toNat = b.toNat) : a = b :=
  Char.eq_of_val_eq (UInt32.ext h)

theorem charListLe_total : ∀ a b : List Char,
    charListLe a b = true ∨ charListLe b a = true
  | [], _ => Or.inl rfl
  | _ :: _, [] => Or.inr rfl
  | a :: as, b :: bs => by
    by_cases hab : a = b
    · subst hab
      simpa [charListLe] using charListLe_total as bs
    · have hne : a.toNat ≠ b.toNat := fun h => hab (char_toNat_inj h)
      rcases Nat.lt_or_ge a.toNat b.toNat with h | h
      · left; simp [charListLe, hab, h]
      · right
        have hlt : b.toNat < a.toNat := by omega
        simp [charListLe, Ne.symm hab, hlt]

theorem charListLe_trans : ∀ a b c : List Char, charListLe a b = true →
    charListLe b c = true → charListLe a c = true
  | [], _, _, _, _ => rfl
  | _ :: _, [], _, h1, _ => Bool.noConfusion h1
  | _ :: _, _ :: _, [], _, h2 => Bool.noConfusion h2
  | x :: xs, y :: ys, z :: zs, h1, h2 => by
    by_cases hxy : x = y
    · subst hxy
      by_cases hxz : x = z
      · subst hxz
        simp only [charListLe, if_pos rfl] at h1 h2 ⊢
        exact charListLe_trans xs ys zs h1 h2
      · simp only [charListLe, if_pos rfl] at h1
        simp only [charListLe, if_neg hxz] at h2 ⊢
        exact h2
    · have h1' : x.toNat < y.toNat := by simpa [charListLe, hxy] using h1
      by_cases hyz : y = z
      · subst hyz
        simp [charListLe, hxy]
        exact h1'
      · have h2' : y.toNat < z.toNat := by simpa [charListLe, hyz] using h2
        have hxz : x ≠ z := by
          intro he
          subst he
          omega
        simp [charListLe, hxz]
        omega

theorem strLe_total (a b : String) : strLe a b = true ∨ strLe b a = true :=
  charListLe_total a.data b.data

theorem strLe_trans {a b c : String} (h1 : strLe a b = true)
    (h2 : strLe b c = true) : strLe a c = true :=
  charListLe_trans a.data b.data c.data h1 h2

/-! ### Weights of the grouping map -/

theorem weightList_cons (e : Extract) (l : List Extract) :
    weightList (e :: l) = (e.key.length + 1) + weightList l := by
  simp [weightList]

theorem weightList_append_one (l : List Extract) (e : Extract) :
    weightList (l ++ [e]) = weightList l + (e.key.length + 1) := by
  simp [weightList]

theorem groupsWeight_cons (a : String × List Extract)
    (rest : List (String × List Extract)) :
    groupsWeight (a :: rest) = weightList a.2 + groupsWeight rest := by
  simp [groupsWeight]

theorem groupsWeight_addToGroups (g : List (String × List Extract)) (k : String)
    (e : Extract) :
    groupsWeight (addToGroups g k e) = groupsWeight g + (e.key.length + 1) := by
  induction g with
  | nil => simp [addToGroups, groupsWeight, weightList]
  | cons p rest ih =>
    obtain ⟨k', l⟩ := p
    by_cases hk : k' = k
    · simp only [addToGroups, if_pos hk, groupsWeight_cons, weightList_append_one]
      omega
    · simp only [addToGroups, if_neg hk, groupsWeight_cons, ih]
      omega

theorem mem_groupsWeight {g : List (String × List Extract)} {k : String}
    {l : List Extract} (h : (k, l) ∈ g) : weightList l ≤ groupsWeight g := by
  induction g with
  | nil => cases h
  | cons p rest ih =>
    rcases List.mem_cons.mp h with h | h
    · rw [← h, groupsWeight_cons]
      exact Nat.le_add_right _ _
    · have := ih h
      rw [groupsWeight_cons]
      omega

theorem keyedWeight_cons_nil {e : Extract} (rest : List Extract) (h : e.key = []) :
    keyedWeight (e :: rest) = keyedWeight rest := by
  simp [keyedWeight, h]

theorem keyedWeight_cons_keyed {e : Extract} (rest : List Extract) (h : e.key ≠ []) :
    keyedWeight (e :: rest) = e.key.length + keyedWeight rest := by
  simp [keyedWeight, List.isEmpty_iff, h]

theorem keyedCount_cons_nil {e : Extract} (rest : List Extract) (h : e.key = []) :
    keyedCount (e :: rest) = keyedCount rest := by
  simp [keyedCount, h]

theorem keyedCount_cons_keyed {e : Extract} (rest : List Extract) (h : e.key ≠ []) :
    keyedCount (e :: rest) = keyedCount rest + 1 := by
  simp [keyedCount, List.isEmpty_iff, h]

theorem distribute_groupsWeight (es : List Extract) : ∀ (b : String)
    (g : List (String × List Extract)),
    groupsWeight ((distribute (b, g) es).2) = groupsWeight g + keyedWeight es := by
  induction es with
  | nil =>
    intro b g
    simp [distribute, keyedWeight]
  | cons e rest ih =>
    intro b g
    cases hk : popKey e with
    | none =>
      have hkey : e.key = [] := (popKey_eq_none_iff e).mp hk
      have hstep : distribute (b, g) (e :: rest) =
          distribute (appendBody b e.val, g) rest := by
        simp only [distribute, hk]
      rw [hstep, ih, keyedWeight_cons_nil rest hkey]
    | some q =>
      obtain ⟨k, e'⟩ := q
      obtain ⟨hne, hlen, -⟩ := popKey_some_facts hk
      have hstep : distribute (b, g) (e :: rest) =
          distribute (b, addToGroups g k e') rest := by
        simp only [distribute, hk]
      rw [hstep, ih, groupsWeight_addToGroups, keyedWeight_cons_keyed rest hne]
      omega

theorem keyedWeight_count_le (es : List Extract) :
    keyedWeight es + keyedCount es ≤ weightList es := by
  induction es with
  | nil => simp [keyedWeight, keyedCount, weightList]
  | cons e rest ih =>
    by_cases hk : e.key = []
    · rw [keyedWeight_cons_nil rest hk, keyedCount_cons_nil rest hk, weightList_cons]
      omega
    · rw [keyedWeight_cons_keyed rest hk, keyedCount_cons_keyed rest hk, weightList_cons]
      omega

theorem distribute_snd_unkeyed (es : List Extract) : ∀ (b : String)
    (g : List (String × List Extract)), keyedCount es = 0 →
    (distribute (b, g) es).2 = g := by
  induction es with
  | nil => intro b g _; rfl
  | cons e rest ih =>
    intro b g h
    cases hk : popKey e with
    | none =>
      have hkey : e.key = [] := (popKey_eq_none_iff e).mp hk
      have hstep : distribute (b, g) (e :: rest) =
          distribute (appendBody b e.val, g) rest := by
        simp only [distribute, hk]
      rw [keyedCount_cons_nil rest hkey] at h
      rw [hstep, ih _ _ h]
    | some q =>
      obtain ⟨k, e'⟩ := q
      obtain ⟨hne, -, -⟩ := popKey_some_facts hk
      rw [keyedCount_cons_keyed rest hne] at h
      omega

theorem group_weight_lt {es : List Extract} {b : String} {k : String}
    {l : List Extract} (h : (k, l) ∈ (distribute (b, []) es).2) :
    weightList l < weightList es := by
  have h1 := mem_groupsWeight h
  have h2 := distribute_groupsWeight es b []
  have h3 := keyedWeight_count_le es
  have h4 : 1 ≤ keyedCount es := by
    by_contra hc
    have h0 : keyedCount es = 0 := by omega
    rw [distribute_snd_unkeyed es b [] h0] at h
    cases h
  have h5 : groupsWeight ([] : List (String × List Extract)) = 0 := rfl
  omega

/-! ### Distinctness and sortedness of the sibling groups -/

theorem addToGroups_keys (g : List (String × List Extract)) (k : String) (e : Extract) :
    (addToGroups g k e).map Prod.fst =
      if k ∈ g.map Prod.fst then g.map Prod.fst else g.map Prod.fst ++ [k] := by
  induction g with
  | nil => simp [addToGroups]
  | cons p rest ih =>
    obtain ⟨k', l⟩ := p
    by_cases hk : k' = k
    · subst hk
      simp [addToGroups]
    · by_cases hm : k ∈ rest.map Prod.fst <;>
        simp [addToGroups, hk, ih, hm, Ne.symm hk]

theorem addToGroups_keys_nodup {g : List (String × List Extract)} (k : String)
    (e : Extract) (h : (g.map Prod.fst).Nodup) :
    ((addToGroups g k e).map Prod.fst).Nodup := by
  rw [addToGroups_keys]
  by_cases hm : k ∈ g.map Prod.fst
  · simp [hm, h]
  · simp [hm, List.nodup_append, h]

theorem distribute_keys_nodup (es : List Extract) : ∀ (b : String)
    (g : List (String × List Extract)), (g.map Prod.fst).Nodup →
    (((distribute (b, g) es).2).map Prod.fst).Nodup := by
  induction es with
  | nil => intro b g h; exact h
  | cons e rest ih =>
    intro b g h
    cases hk : popKey e with
    | none =>
      have hstep : distribute (b, g) (e :: rest) =
          distribute (appendBody b e.val, g) rest := by
        simp only [distribute, hk]
      rw [hstep]
      exact ih _ _ h
    | some q =>
      obtain ⟨k, e'⟩ := q
      have hstep : distribute (b, g) (e :: rest) =
          distribute (b, addToGroups g k e') rest := by
        simp only [distribute, hk]
      rw [hstep]
      exact ih _ _ (addToGroups_keys_nodup k e' h)

theorem sortGroups_pairwise (gs : List (String × List Extract))
    (hnd : (gs.map Prod.fst).Nodup) :
    List.Pairwise (fun a b => strLe a.1 b.1 = true ∧ a.1 ≠ b.1) (sortGroups gs) := by
  have hsorted : List.Pairwise (fun (a b : String × List Extract) =>
      strLe a.1 b.1 = true) (sortGroups gs) := by
    unfold sortGroups
    haveI : IsTotal (String × List Extract) (fun a b => strLe a.1 b.1 = true) :=
      ⟨fun a b => strLe_total a.1 b.1⟩
    haveI : IsTrans (String × List Extract) (fun a b => strLe a.1 b.1 = true) :=
      ⟨fun _ _ _ h1 h2 => strLe_trans h1 h2⟩
    exact List.sorted_insertionSort _ gs
  have hperm : (sortGroups gs).Perm gs := List.perm_insertionSort _ gs
  have hnd' : ((sortGroups gs).map Prod.fst).Nodup :=
    ((hperm.map Prod.fst).nodup_iff).mpr hnd
  have hnepair : List.Pairwise (fun (a b : String × List Extract) => a.1 ≠ b.1)
      (sortGroups gs) := List.pairwise_map.mp hnd'
  exact hsorted.and hnepair

/-! ### Shape of the children produced by one `generate_chapter` call -/

theorem childChapters_mk_map {α : Type} (F : α → Chapter) (l : List α)
    (nm cont : String) (num : Option (List Nat)) (pa sp : Option String)
    (pn : List String) :
    childChapters (.mk nm cont num (l.map fun x => BookItem.chapter (F x)) pa sp pn) =
      l.map F := by
  induction l with
  | nil => rfl
  | cons x xs ih =>
    have hstep : childChapters
        (.mk nm cont num ((x :: xs).map fun x => BookItem.chapter (F x)) pa sp pn) =
        F x :: childChapters
          (.mk nm cont num (xs.map fun x => BookItem.chapter (F x)) pa sp pn) := rfl
    rw [hstep, ih, List.map_cons]

theorem childChapters_generateAux (f : Nat) (es : List Extract) (n : String)
    (p : List String) (s : List Nat) :
    childChapters (generateAux (f + 1) es n p s) =
      (withIdx 1 (sortGroups (distribute ("## " ++ joinSep " / " (p ++ [n]), []) es).2)).map
        (fun g => generateAux f g.2.2 g.2.1 (p ++ [n]) (s ++ [g.1])) :=
  childChapters_mk_map
    (fun g => generateAux f g.2.2 g.2.1 (p ++ [n]) (s ++ [g.1]))
    (withIdx 1 (sortGroups (distribute ("## " ++ joinSep " / " (p ++ [n]), []) es).2))
    n (distribute ("## " ++ joinSep " / " (p ++ [n]), []) es).1 (some s) (some n)
    none p

theorem name_generateAux (f : Nat) (es : List Extract) (n : String)
    (p : List String) (s : List Nat) : (generateAux f es n p s).name = n := by
  cases f <;> rfl

theorem number_generateAux (f : Nat) (es : List Extract) (n : String)
    (p : List String) (s : List Nat) :
    (generateAux f es n p s).number = some s := by
  cases f <;> rfl

theorem withIdx_map_snd : ∀ (i : Nat) (l : List (String × List Extract)),
    (withIdx i l).map Prod.snd = l
  | _, [] => rfl
  | i, g :: gs => by simp [withIdx, withIdx_map_snd (i + 1) gs]

theorem withIdx_length : ∀ (i : Nat) (l : List (String × List Extract)),
    (withIdx i l).length = l.length
  | _, [] => rfl
  | i, g :: gs => by simp [withIdx, withIdx_length (i + 1) gs]

theorem withIdx_get : ∀ (l : List (String × List Extract)) (i j : Nat)
    (h : j < (withIdx i l).length) (h' : j < l.length),
    (withIdx i l).get ⟨j, h⟩ = (i + j, l.get ⟨j, h'⟩)
  | [], _, j, _, h' => by simp at h'
  | g :: gs, i, 0, h, h' => by simp [withIdx]
  | g :: gs, i, j + 1, h, h' => by
    have hh : j < (withIdx (i + 1) gs).length := by
      have := h
      simp only [withIdx, List.length_cons] at this
      omega
    have hh' : j < gs.length := by
      simp only [List.length_cons] at h'
      omega
    have hrec := withIdx_get gs (i + 1) j hh hh'
    have hl : (withIdx i (g :: gs)).get ⟨j + 1, h⟩ =
        (withIdx (i + 1) gs).get ⟨j, hh⟩ := rfl
    rw [hl, hrec]
    rw [show i + 1 + j = i + (j + 1) by omega]
    rfl

theorem withIdx_mem : ∀ {x : Nat × String × List Extract} (i : Nat)
    (l : List (String × List Extract)), x ∈ withIdx i l → x.2 ∈ l := by
  intro x i l
  induction l generalizing i with
  | nil => intro h; cases h
  | cons g gs ih =>
    intro h
    rcases List.mem_cons.mp h with h | h
    · rw [h]
      exact List.mem_cons_self g gs
    · exact List.mem_cons_of_mem g (ih (i + 1) h)

/-! ### Claim C6: the tree invariant of `generate_chapter` -/

theorem treeInv_generateAux : ∀ (f : Nat) (es : List Extract) (n : String)
    (p : List String) (s : List Nat),
    weightList es < f → TreeInv (generateAux f es n p s) := by
  intro f
  induction f with
  | zero => intro es n p s h; exact absurd h (Nat.not_lt_zero _)
  | succ f ih =>
    intro es n p s h
    have hchild := childChapters_generateAux f es n p s
    refine TreeInv.node _ ?_ ?_ ?_
    · -- sibling names strictly ascending
      rw [hchild, List.pairwise_map]
      have hnd : (((distribute ("## " ++ joinSep " / " (p ++ [n]), []) es).2).map
          Prod.fst).Nodup := distribute_keys_nodup es _ [] (by simp)
      have hcomb := sortGroups_pairwise _ hnd
      have h2 : List.Pairwise
          (fun (a b : String × List Extract) => strLe a.1 b.1 = true ∧ a.1 ≠ b.1)
          ((withIdx 1 (sortGroups
            (distribute ("## " ++ joinSep " / " (p ++ [n]), []) es).2)).map Prod.snd) := by
        rw [withIdx_map_snd]
        exact hcomb
      have h3 := List.pairwise_map.mp h2
      refine List.Pairwise.imp ?_ h3
      intro a b hab
      constructor
      · simp only [name_generateAux]
        exact hab.1
      · simp only [name_generateAux]
        exact hab.2
    · -- positions: parent's section number with i + 1 appended
      rw [hchild, number_generateAux]
      intro i hi
      have hlen : i < (withIdx 1 (sortGroups
          (distribute ("## " ++ joinSep " / " (p ++ [n]), []) es).2)).length := by
        simpa using hi
      have hlen' : i < (sortGroups
          (distribute ("## " ++ joinSep " / " (p ++ [n]), []) es).2).length := by
        rw [← withIdx_length 1]
        exact hlen
      rw [List.get_map]
      rw [withIdx_get _ 1 i hlen hlen']
      simp [number_generateAux, Nat.add_comm]
    · -- recursive invariant below each child
      rw [hchild]
      intro c' hc'
      obtain ⟨g, hgmem, rfl⟩ := List.mem_map.mp hc'
      have h2 : g.2 ∈ sortGroups
          (distribute ("## " ++ joinSep " / " (p ++ [n]), []) es).2 :=
        withIdx_mem 1 _ hgmem
      have h3 : (g.2.1, g.2.2) ∈ sortGroups
          (distribute ("## " ++ joinSep " / " (p ++ [n]), []) es).2 := h2
      have h4 := group_weight_lt ((List.mem_insertionSort _).mp h3)
      exact ih g.2.2 g.2.1 (p ++ [n]) (s ++ [g.1]) (by omega)

/-- Claim C6: every node of the tree built by `generate_chapter` has its
children sorted strictly ascending by label (ordinal string order, no
duplicate labels), and the `i`-th child's position is the parent's position
with `i + 1` appended (`1, 2, 3, …` in sorted sibling order). -/
theorem C6_children_sorted_positions (es : List Extract) (n : String)
    (p : List String) (s : List Nat) :
    TreeInv (generate_chapter es n p s) :=
  treeInv_generateAux (weightList es + 1) es n p s (Nat.lt_succ_self _)
